import Mathlib

/-!
Verification of the HHeuristics news aggregation worker (src/index.ts).

The embedding translates the pure pipeline of the worker into Lean:
articles, the dedupe-and-interleave merger, the RSS text cleaning and
truncation, the summarizer reconciliation, the generation routine and the
in-memory cache logic of getOrGenerateNews.  External effects (network
fetches, the AI call, JSON parsing of the free-form model response) are
modelled by explicit outcome parameters: a failed fetch is a none result,
the parsed summarization response is an optional list of items.  Machine
timestamps (Date.now, millisecond epoch values) are modelled as Int.
Strings are modelled at the level of their character lists; character
scanning functions carry a fuel argument equal to the input length, which
is enough because every step consumes at least one input character.
-/

set_option maxRecDepth 4000

/-- The Article record of the worker: title, source, url, publishedAt and
summary are all strings. -/
structure Article where
  title : String
  source : String
  url : String
  publishedAt : String
  summary : String
deriving DecidableEq, Repr

/-- The CachedNews record: generation timestamp (millisecond epoch, stands
for the ISO string the code stores, which Date.parse recovers), ttl in
seconds, and the article list. -/
structure CachedNews where
  generatedAt : Int
  ttlSeconds : Int
  articles : List Article
deriving DecidableEq, Repr

/-- One item of the parsed summarization response: both fields optional,
because the model response may omit either. -/
structure SummaryItem where
  title : Option String
  summary : Option String
deriving DecidableEq, Repr

def CACHE_TTL_SECONDS : Int := 15 * 60

def MAX_ARTICLES_PER_SOURCE : Nat := 6

def FINAL_ARTICLE_COUNT : Nat := 15

/-- Lowercasing a string character by character, the model of the
JavaScript toLowerCase call used for the dedup key.  JavaScript
toLowerCase is Unicode aware while Char.toLower lowercases the ASCII
range, so titles differing only in non-ASCII case are outside the
granularity of this model. -/
def strToLower (s : String) : String :=
  String.mk (s.data.map Char.toLower)

/-- Trimming surrounding whitespace, the model of the JavaScript trim
call.  JavaScript trims a slightly larger whitespace class; on feed text
the two agree. -/
def strTrim (s : String) : String :=
  String.mk (((s.data.dropWhile Char.isWhitespace).reverse.dropWhile Char.isWhitespace).reverse)

/-- The truncate helper of the worker: text unchanged when its length is
at most maxLen, otherwise the first maxLen - 1 characters followed by the
one-character ellipsis marker. -/
def truncate (text : String) (maxLen : Nat) : String :=
  if text.length ≤ maxLen then text
  else String.mk (text.data.take (maxLen - 1)) ++ "…"

/-- The double-quote character, written by code so that no quote appears
inside a character literal. -/
def quoteChar : Char := Char.ofNat 34

/-- The apostrophe character, written by code so that no apostrophe
appears inside a character literal. -/
def aposChar : Char := Char.ofNat 39

/-- Case-insensitive match of a lowercase pattern against the front of the
input; some remainder on success. -/
def ciMatch : List Char → List Char → Option (List Char)
  | [], cs => some cs
  | _ :: _, [] => none
  | p :: ps, c :: cs => if c.toLower = p then ciMatch ps cs else none

/-- After the letters b r of an opening angle bracket: optional
whitespace, an optional slash, then the closing angle bracket.  Models the
tail of the br-tag regular expression. -/
def stripBrTail (cs : List Char) : Option (List Char) :=
  match cs.dropWhile Char.isWhitespace with
  | '/' :: '>' :: r => some r
  | '>' :: r => some r
  | _ => none

/-- One left-to-right pass replacing every br tag (case insensitive) by a
space, the first replace of cleanRssText.  Fuel is the input length. -/
def replaceBrF : Nat → List Char → List Char
  | 0, cs => cs
  | _ + 1, [] => []
  | fuel + 1, c :: cs =>
    if c = '<' then
      match cs with
      | c1 :: c2 :: rest =>
        if (c1 = 'b' ∨ c1 = 'B') ∧ (c2 = 'r' ∨ c2 = 'R') then
          match stripBrTail rest with
          | some r => ' ' :: replaceBrF fuel r
          | none => c :: replaceBrF fuel cs
        else c :: replaceBrF fuel cs
      | _ => c :: replaceBrF fuel cs
    else c :: replaceBrF fuel cs

/-- One pass replacing every closing p tag (case insensitive) by a space,
the second replace of cleanRssText. -/
def replacePCloseF : List Char → List Char
  | '<' :: '/' :: c :: '>' :: rest =>
    if c = 'p' ∨ c = 'P' then ' ' :: replacePCloseF rest
    else '<' :: replacePCloseF ('/' :: c :: '>' :: rest)
  | c :: rest => c :: replacePCloseF rest
  | [] => []

/-- One pass replacing every closing div tag (case insensitive) by a
space, the third replace of cleanRssText. -/
def replaceDivCloseF : List Char → List Char
  | '<' :: '/' :: c1 :: c2 :: c3 :: '>' :: rest =>
    if (c1 = 'd' ∨ c1 = 'D') ∧ (c2 = 'i' ∨ c2 = 'I') ∧ (c3 = 'v' ∨ c3 = 'V') then
      ' ' :: replaceDivCloseF rest
    else '<' :: replaceDivCloseF ('/' :: c1 :: c2 :: c3 :: '>' :: rest)
  | c :: rest => c :: replaceDivCloseF rest
  | [] => []

/-- One pass deleting every remaining markup tag: an opening angle
bracket, one or more characters other than the closing angle bracket, then
the closing angle bracket.  Fuel is the input length. -/
def stripTagsF : Nat → List Char → List Char
  | 0, cs => cs
  | _ + 1, [] => []
  | fuel + 1, c :: cs =>
    if c = '<' then
      match cs with
      | d :: ds =>
        if d = '>' then c :: stripTagsF fuel cs
        else
          match (d :: ds).dropWhile (fun e => e ≠ '>') with
          | '>' :: r => stripTagsF fuel r
          | _ => c :: stripTagsF fuel cs
      | [] => c :: stripTagsF fuel cs
    else c :: stripTagsF fuel cs

/-- One pass replacing every case-insensitive occurrence of a fixed
nonempty lowercase pattern by a replacement, the model of one entity
decoding replace.  Fuel is the input length. -/
def replaceAllCIF (pat : List Char) (rep : List Char) : Nat → List Char → List Char
  | 0, cs => cs
  | _ + 1, [] => []
  | fuel + 1, c :: cs =>
    match ciMatch pat (c :: cs) with
    | some rest => rep ++ replaceAllCIF pat rep fuel rest
    | none => c :: replaceAllCIF pat rep fuel cs

/-- One pass collapsing every maximal run of whitespace to a single space,
the final replace of cleanRssText.  Fuel is the input length. -/
def collapseWsF : Nat → List Char → List Char
  | 0, cs => cs
  | _ + 1, [] => []
  | fuel + 1, c :: cs =>
    if c.isWhitespace then ' ' :: collapseWsF fuel (cs.dropWhile Char.isWhitespace)
    else c :: collapseWsF fuel cs

/-- The cleanRssText helper of the worker: empty input stays empty;
otherwise br tags and closing p and div tags become spaces, remaining tags
are stripped, the seven named HTML entities are decoded, whitespace runs
collapse to one space and the result is trimmed. -/
def cleanRssText (html : String) : String :=
  if html = "" then ""
  else
    let t0 := replaceBrF html.data.length html.data
    let t1 := replacePCloseF t0
    let t2 := replaceDivCloseF t1
    let t3 := stripTagsF t2.length t2
    let t4 := replaceAllCIF "&nbsp;".data [' '] t3.length t3
    let t5 := replaceAllCIF "&amp;".data ['&'] t4.length t4
    let t6 := replaceAllCIF "&lt;".data ['<'] t5.length t5
    let t7 := replaceAllCIF "&gt;".data ['>'] t6.length t6
    let t8 := replaceAllCIF "&quot;".data [quoteChar] t7.length t7
    let t9 := replaceAllCIF "&apos;".data [aposChar] t8.length t8
    let t10 := replaceAllCIF "&#39;".data [aposChar] t9.length t9
    strTrim (String.mk (collapseWsF t10.length t10))

/-- The body of the parseRss item loop, applied to the raw regex captures
of one item fragment: trim the captures, clean title and description,
truncate the description to 320 characters, and drop the entry when the
cleaned title or the link is empty. -/
def parseRssEntry (rawTitle rawLink rawPubDate rawDescription source : String) : Option Article :=
  let title := cleanRssText (strTrim rawTitle)
  let url := strTrim rawLink
  let publishedAt := strTrim rawPubDate
  let description := truncate (cleanRssText (strTrim rawDescription)) 320
  if title = "" ∨ url = "" then none
  else some { title := title, source := source, url := url,
              publishedAt := publishedAt, summary := description }

/-- First-wins deduplication by lowercased title, the intended reading of
the dedupedMap object of dedupeAndInterleaveBySource, with the already
seen keys as an accumulator.  The exact JavaScript object semantics, in
which the truthiness guard on the map reads through the prototype chain
and value enumeration reorders integer-like keys, is modelled separately
below by dedupeJsLoop, jsObjectValues and dedupeByTitleJs; away from
those exotic keys the two agree (theorem dedupeByTitleJs_good). -/
def dedupeAux : List Article → List String → List Article
  | [], _ => []
  | a :: rest, seen =>
    if strToLower a.title ∈ seen then dedupeAux rest seen
    else a :: dedupeAux rest (strToLower a.title :: seen)

/-- The deduplicated article sequence of the intended reading, in first
occurrence order. -/
def dedupeByTitle (articles : List Article) : List Article :=
  dedupeAux articles []

/-- Appending one article to the group of its source, the model of one
step of the bySource map construction; a new source opens a new group at
the end, matching insertion order of a JavaScript Map. -/
def insertGrouped : List (String × List Article) → Article → List (String × List Article)
  | [], a => [(a.source, [a])]
  | (k, l) :: rest, a =>
    if k = a.source then (k, l ++ [a]) :: rest
    else (k, l) :: insertGrouped rest a

/-- Grouping the deduplicated sequence by source, preserving each source
internal order and first-appearance order of the sources. -/
def groupBySource (articles : List Article) : List (String × List Article) :=
  articles.foldl insertGrouped []

/-- The articles emitted by one round-robin sweep: the head of every
nonempty group, in group order. -/
def sweepHeads (groups : List (List Article)) : List Article :=
  groups.filterMap List.head?

/-- The groups after one sweep: every group loses its head. -/
def sweepTails (groups : List (List Article)) : List (List Article) :=
  groups.map List.tail

/-- The round-robin while loop of dedupeAndInterleaveBySource: sweeps run
while some group still has articles.  Fuel bounds the number of sweeps
just as the loop guard bounds the result length by the deduplicated
count: a continuing sweep emits at least one article, so fuel equal to
the total article count is never exhausted. -/
def interleaveRounds : Nat → List (List Article) → List Article
  | 0, _ => []
  | fuel + 1, groups =>
    let heads := sweepHeads groups
    if heads.isEmpty then []
    else heads ++ interleaveRounds fuel (sweepTails groups)

/-- The dedupeAndInterleaveBySource function of the worker: deduplicate by
lowercased title, group by source, then emit round-robin across the
groups until all deduplicated articles are emitted. -/
def dedupeAndInterleaveBySource (articles : List Article) : List Article :=
  let deduped := dedupeByTitle articles
  interleaveRounds deduped.length ((groupBySource deduped).map Prod.snd)

/-- The replacement of one article field from a response item: the field
value trimmed when the item supplies a nonempty trimmed value, otherwise
the original field.  Models the or-else expression of the article map in
summarizeArticles. -/
def pickField (candidate : Option String) (fallback : String) : String :=
  match candidate with
  | some s => if strTrim s = "" then fallback else strTrim s
  | none => fallback

/-- The article map of summarizeArticles: position i of the input is
paired with position i of the parsed items; a missing item leaves the
article unchanged. -/
def applySummaries : List Article → List SummaryItem → List Article
  | [], _ => []
  | a :: rest, [] => a :: applySummaries rest []
  | a :: rest, s :: ss =>
    { a with title := pickField s.title a.title,
             summary := pickField s.summary a.summary } :: applySummaries rest ss

/-- The summarizeArticles function of the worker, with the outcome of the
external AI call and response parsing as a parameter: none stands for a
failed call or a response from which no usable JSON object was recovered
(the catch path returns the input unchanged), some items stands for a
usable parse with its item list (an absent items field gives the empty
list).  An empty input returns immediately without any call. -/
def summarizeArticles (articles : List Article) (aiItems : Option (List SummaryItem)) : List Article :=
  if articles.isEmpty then articles
  else
    match aiItems with
    | none => articles
    | some items => applySummaries articles items

/-- The generateNews function of the worker, with the per-source fetch and
parse outcomes as parameters: none stands for a failed fetch or a
non-success status (the catch of the source map turns it into an empty
contribution), some l for a parsed article list.  The results are
flattened, capped at MAX_ARTICLES_PER_SOURCE per source overall, merged,
truncated to FINAL_ARTICLE_COUNT, summarized, and stamped with the
completion time and the configured ttl. -/
def generateNews (fetchResults : List (Option (List Article)))
    (aiItems : Option (List SummaryItem)) (now : Int) : CachedNews :=
  let rssResults := fetchResults.map (fun r => r.getD [])
  let flatArticles := rssResults.flatten.take (MAX_ARTICLES_PER_SOURCE * fetchResults.length)
  let uniqueArticles := (dedupeAndInterleaveBySource flatArticles).take FINAL_ARTICLE_COUNT
  { generatedAt := now, ttlSeconds := CACHE_TTL_SECONDS,
    articles := summarizeArticles uniqueArticles aiItems }

/-- The module state of the worker isolate: the cachedNews variable plus a
ghost counter of generation runs started and not yet settled, which the
code itself does not track anywhere. -/
structure WorkerState where
  cachedNews : Option CachedNews
  pendingRuns : Nat
deriving DecidableEq, Repr

/-- What the synchronous part of getOrGenerateNews does for one caller:
either the fresh cached batch is served at once, or the caller is left
awaiting a generation run it has just started. -/
inductive RequestOutcome where
  | servedCached (batch : CachedNews)
  | awaitingNewRun
deriving DecidableEq, Repr

/-- The freshness test of getOrGenerateNews: the cached batch age in
milliseconds is below its ttl.  The Date.parse NaN guard never fires on a
generatedAt the code itself wrote, so it is not modelled. -/
def isFresh (c : CachedNews) (now : Int) : Bool :=
  now - c.generatedAt < c.ttlSeconds * 1000

/-- The synchronous prefix of getOrGenerateNews, which under the
single-threaded cooperative model runs atomically: check the cache and
either serve it or start a new generateNews run.  The run is started
unconditionally whenever the cache is absent or stale; nothing in the
code consults or stores an in-flight promise. -/
def handleRequest (st : WorkerState) (now : Int) : RequestOutcome × WorkerState :=
  match st.cachedNews with
  | some c =>
    if isFresh c now then (RequestOutcome.servedCached c, st)
    else (RequestOutcome.awaitingNewRun, { st with pendingRuns := st.pendingRuns + 1 })
  | none => (RequestOutcome.awaitingNewRun, { st with pendingRuns := st.pendingRuns + 1 })

/-- Settling one generation run, the then and catch continuations of the
promise in getOrGenerateNews: on success the new batch is stored and
returned; on failure the held batch, if any, is returned and kept,
otherwise an empty batch stamped with the current time and the configured
ttl is returned without being stored. -/
def settleRun (st : WorkerState) (outcome : Option CachedNews) (now : Int) :
    CachedNews × WorkerState :=
  match outcome with
  | some news => (news, { cachedNews := some news, pendingRuns := st.pendingRuns - 1 })
  | none =>
    match st.cachedNews with
    | some c => (c, { st with pendingRuns := st.pendingRuns - 1 })
    | none =>
      ({ generatedAt := now, ttlSeconds := CACHE_TTL_SECONDS, articles := [] },
       { st with pendingRuns := st.pendingRuns - 1 })

/-- The number of articles of a given source in a list. -/
def countSrc (s : String) (xs : List Article) : Nat :=
  (xs.filter (fun a => a.source == s)).length

/-- Well-formedness of a group list produced by grouping articles by
source: every group is source-uniform and two distinct groups never share
a source. -/
def SrcGrouped (gs : List (List Article)) : Prop :=
  gs.Pairwise (fun g h => ∀ a ∈ g, ∀ b ∈ h, a.source ≠ b.source)
  ∧ ∀ g ∈ gs, ∀ a ∈ g, ∀ b ∈ g, a.source = b.source

/-- Canonical base-10 reading of a key: some n when the key is exactly
the decimal representation of n, digits only with no leading zero except
the string 0 itself. -/
def parseCanonicalNat (key : String) : Option Nat :=
  match key.data with
  | [] => none
  | c :: cs =>
    if (c :: cs).all Char.isDigit ∧ (c = '0' → cs = []) then
      some ((c :: cs).foldl (fun acc d => acc * 10 + (d.toNat - 48)) 0)
    else none

/-- Array-index test of the JavaScript object model: a key is an array
index when it is the canonical decimal representation of an integer
below 2 ^ 32 - 1.  Own-property enumeration lists such keys first, in
ascending numeric order, before the other keys in insertion order. -/
def isArrayIndex (key : String) : Option Nat :=
  match parseCanonicalNat key with
  | some n => if n < 4294967295 then some n else none
  | none => none

/-- Insertion into a list sorted by ascending numeric key. -/
def insertByIdx (x : Nat × Article) : List (Nat × Article) → List (Nat × Article)
  | [] => [x]
  | y :: ys => if x.1 ≤ y.1 then x :: y :: ys else y :: insertByIdx x ys

/-- Insertion sort by ascending numeric key, the enumeration order of
array-index properties. -/
def sortByIdx : List (Nat × Article) → List (Nat × Article)
  | [] => []
  | x :: xs => insertByIdx x (sortByIdx xs)

/-- The Object.values enumeration of a plain object whose own properties
are the given insertion-ordered pairs: array-index keys first in
ascending numeric order, then the remaining string keys in insertion
order. -/
def jsObjectValues (ps : List (String × Article)) : List Article :=
  let idx := ps.filterMap (fun p => (isArrayIndex p.1).map (fun n => (n, p.2)))
  let others := ps.filter (fun p => (isArrayIndex p.1).isNone)
  (sortByIdx idx).map Prod.snd ++ others.map Prod.snd

/-- A plain object literal used as the dedup map: its own string-keyed
properties in insertion order, plus its prototype, which the inherited
setter of the key named by two underscores, proto, two underscores
replaces by the assigned article.  Before such an assignment the
prototype is Object.prototype and protoArticle is none. -/
structure JsObjState where
  ownProps : List (String × Article)
  protoArticle : Option Article
deriving DecidableEq, Repr

/-- Truthiness of a property read on the dedup object, following the
prototype chain: an own property, always an Article object, is truthy;
otherwise, when an article has been installed as prototype, its string
fields are consulted and are truthy when nonempty (the publishedAt field
is unreachable from a lowercased key but is included for generality);
otherwise the lookup reaches Object.prototype, whose truthy properties
reachable from a lowercased key are exactly constructor and the proto
accessor, since every other Object.prototype property name contains an
uppercase letter, which a lowercased key never does. -/
def jsLookupTruthy (st : JsObjState) (key : String) : Bool :=
  if key ∈ st.ownProps.map Prod.fst then true
  else
    match st.protoArticle with
    | some p =>
      if key = "title" then p.title != ""
      else if key = "source" then p.source != ""
      else if key = "url" then p.url != ""
      else if key = "publishedAt" then p.publishedAt != ""
      else if key = "summary" then p.summary != ""
      else key == "constructor" || key == "__proto__"
    | none => key == "constructor" || key == "__proto__"

/-- Assignment on the dedup object: assigning the proto key invokes the
inherited setter and replaces the prototype without creating an own
property; any other key is appended as a new own property.  The dedup
loop assigns only keys whose lookup was falsy, so never an existing own
key. -/
def jsAssign (st : JsObjState) (key : String) (a : Article) : JsObjState :=
  if key = "__proto__" then { st with protoArticle := some a }
  else { st with ownProps := st.ownProps ++ [(key, a)] }

/-- The dedup loop of dedupeAndInterleaveBySource over the plain object:
for each article the lowercased title is the key, and the article is
stored only when the truthy test on the current object fails. -/
def dedupeJsLoop : List Article → JsObjState → JsObjState
  | [], st => st
  | a :: rest, st =>
    let key := strToLower a.title
    if jsLookupTruthy st key then dedupeJsLoop rest st
    else dedupeJsLoop rest (jsAssign st key a)

/-- The deduplicated article list of the program under the exact
JavaScript object semantics: run the dedup loop on a fresh object
literal and enumerate its values. -/
def dedupeByTitleJs (articles : List Article) : List Article :=
  jsObjectValues (dedupeJsLoop articles ⟨[], none⟩).ownProps

/-- The dedupeAndInterleaveBySource function with the exact JavaScript
object semantics for the dedup map; grouping and round-robin interleave
are the same as in dedupeAndInterleaveBySource. -/
def dedupeAndInterleaveBySourceJs (articles : List Article) : List Article :=
  let deduped := dedupeByTitleJs articles
  interleaveRounds deduped.length ((groupBySource deduped).map Prod.snd)

/-- A dedup key that triggers none of the exotic object behaviors: not
one of the two Object.prototype property names reachable from a
lowercased key, and not an array-index string. -/
def goodKey (key : String) : Prop :=
  key ≠ "constructor" ∧ key ≠ "__proto__" ∧ isArrayIndex key = none

instance goodKeyDecidable (key : String) : Decidable (goodKey key) :=
  inferInstanceAs (Decidable (key ≠ "constructor" ∧ key ≠ "__proto__" ∧ isArrayIndex key = none))

theorem applySummaries_length (arts : List Article) (items : List SummaryItem) :
    (applySummaries arts items).length = arts.length := by
  induction arts generalizing items with
  | nil => simp [applySummaries]
  | cons a rest ih =>
    cases items with
    | nil => simpa [applySummaries] using ih []
    | cons s ss => simpa [applySummaries] using ih ss

theorem applySummaries_get? (arts : List Article) (items : List SummaryItem) (i : Nat) :
    (applySummaries arts items).get? i =
      match arts.get? i, items.get? i with
      | some a, some s =>
          some { a with title := pickField s.title a.title,
                        summary := pickField s.summary a.summary }
      | some a, none => some a
      | none, _ => none := by
  induction arts generalizing items i with
  | nil => cases items <;> cases i <;> simp [applySummaries]
  | cons a rest ih =>
    cases items with
    | nil =>
      cases i with
      | zero => simp [applySummaries]
      | succ n => simpa [applySummaries] using ih [] n
    | cons s ss =>
      cases i with
      | zero => simp [applySummaries]
      | succ n => simpa [applySummaries] using ih ss n

theorem summarizeArticles_length (articles : List Article) (aiItems : Option (List SummaryItem)) :
    (summarizeArticles articles aiItems).length = articles.length := by
  unfold summarizeArticles
  split
  · rfl
  · cases aiItems with
    | none => rfl
    | some items => exact applySummaries_length articles items

/-- Claim C9: for every input list and every outcome of the external
summarization call, the summarizer returns a sequence of the same length,
and at every index the source, url and publishedAt fields of the output
article equal those of the input article; only title and summary may
differ. -/
theorem summarizer_frame (articles : List Article) (aiItems : Option (List SummaryItem)) :
    (summarizeArticles articles aiItems).length = articles.length
  ∧ ∀ i : Nat,
      ((summarizeArticles articles aiItems).get? i).map Article.source
          = (articles.get? i).map Article.source
    ∧ ((summarizeArticles articles aiItems).get? i).map Article.url
          = (articles.get? i).map Article.url
    ∧ ((summarizeArticles articles aiItems).get? i).map Article.publishedAt
          = (articles.get? i).map Article.publishedAt := by
  refine ⟨summarizeArticles_length articles aiItems, fun i => ?_⟩
  unfold summarizeArticles
  split
  · exact ⟨rfl, rfl, rfl⟩
  · cases aiItems with
    | none => exact ⟨rfl, rfl, rfl⟩
    | some items =>
      rw [applySummaries_get? articles items i]
      cases h1 : articles.get? i <;> cases h2 : items.get? i <;> simp

/-- Claim C7: whenever the parsed response supplies fewer items than there
are input articles, every index with a corresponding item gets its title
and summary replaced through the trimmed-or-fallback rule, and every
unmatched trailing article is returned unchanged; no error occurs. -/
theorem summarizer_index_alignment (articles : List Article) (items : List SummaryItem)
    (hshort : items.length < articles.length) :
    (∀ i a s, articles.get? i = some a → items.get? i = some s →
        (summarizeArticles articles (some items)).get? i
          = some { a with title := pickField s.title a.title,
                          summary := pickField s.summary a.summary })
  ∧ (∀ i, items.length ≤ i →
        (summarizeArticles articles (some items)).get? i = articles.get? i) := by
  have hne : articles ≠ [] := by
    intro h
    rw [h] at hshort
    simp at hshort
  have hemp : articles.isEmpty = false := by
    cases articles with
    | nil => exact absurd rfl hne
    | cons a rest => rfl
  constructor
  · intro i a s ha hs
    unfold summarizeArticles
    rw [hemp]
    simp only [Bool.false_eq_true, if_false]
    rw [applySummaries_get? articles items i, ha, hs]
  · intro i hi
    unfold summarizeArticles
    rw [hemp]
    simp only [Bool.false_eq_true, if_false]
    rw [applySummaries_get? articles items i, List.get?_eq_none.mpr hi]
    cases articles.get? i <;> rfl

/-- Witness for claim C7 at a concrete input: three articles, two response
items, the third article unchanged. -/
theorem summarizer_index_alignment_witness :
    let arts : List Article :=
      [⟨"t1", "A", "u1", "p1", "s1"⟩, ⟨"t2", "B", "u2", "p2", "s2"⟩, ⟨"t3", "C", "u3", "p3", "s3"⟩]
    let items : List SummaryItem := [⟨some " N1 ", some "S1"⟩, ⟨some "N2", none⟩]
    items.length < arts.length
  ∧ ((∀ i a s, arts.get? i = some a → items.get? i = some s →
        (summarizeArticles arts (some items)).get? i
          = some { a with title := pickField s.title a.title,
                          summary := pickField s.summary a.summary })
     ∧ (∀ i, items.length ≤ i →
        (summarizeArticles arts (some items)).get? i = arts.get? i)) := by
  intro arts items
  exact ⟨by decide, summarizer_index_alignment arts items (by decide)⟩

/-- Counterexample to claim C2: with an empty (hence stale) cache, a first
caller starts a generation run; a second caller arriving while that run
is still in flight does not await it but starts a second independent run,
so two runs are in flight.  getOrGenerateNews stores no in-flight promise
anywhere, so nothing makes the second caller observe the first run. -/
theorem cache_refresh_not_single_flight :
    (handleRequest ⟨none, 0⟩ 0).1 = RequestOutcome.awaitingNewRun
  ∧ (handleRequest ⟨none, 0⟩ 0).2.pendingRuns = 1
  ∧ (handleRequest (handleRequest ⟨none, 0⟩ 0).2 0).1 = RequestOutcome.awaitingNewRun
  ∧ (handleRequest (handleRequest ⟨none, 0⟩ 0).2 0).2.pendingRuns = 2 := by
  decide

/-- Claim C2 as amended: every caller that finds the cache empty or stale
starts its own independent generation run and awaits that run, no matter
how many runs are already in flight; there is no single-flight sharing. -/
theorem cache_stale_request_starts_own_run (st : WorkerState) (now : Int)
    (h : st.cachedNews = none ∨ ∃ c, st.cachedNews = some c ∧ isFresh c now = false) :
    handleRequest st now
      = (RequestOutcome.awaitingNewRun, { st with pendingRuns := st.pendingRuns + 1 }) := by
  rcases h with h | ⟨c, hc, hf⟩
  · simp [handleRequest, h]
  · simp [handleRequest, hc, hf]

/-- Witness for the amended claim C2: with three runs already in flight
and an empty cache, a further caller starts a fourth run. -/
theorem cache_stale_request_starts_own_run_witness :
    ((⟨none, 3⟩ : WorkerState).cachedNews = none
      ∨ ∃ c, (⟨none, 3⟩ : WorkerState).cachedNews = some c ∧ isFresh c 0 = false)
  ∧ handleRequest ⟨none, 3⟩ 0 = (RequestOutcome.awaitingNewRun, ⟨none, 4⟩) :=
  ⟨Or.inl rfl, cache_stale_request_starts_own_run ⟨none, 3⟩ 0 (Or.inl rfl)⟩

/-- Claim C3: when the cache holds a stale batch and the triggered
regeneration run fails, the caller gets the previously held batch
unchanged and the batch stays in the cache. -/
theorem serve_stale_on_refresh_failure (st : WorkerState) (c : CachedNews) (now : Int)
    (hheld : st.cachedNews = some c) (hstale : isFresh c now = false) :
    (handleRequest st now).1 = RequestOutcome.awaitingNewRun
  ∧ (settleRun (handleRequest st now).2 none now).1 = c
  ∧ (settleRun (handleRequest st now).2 none now).2.cachedNews = some c := by
  simp [handleRequest, settleRun, hheld, hstale]

/-- Witness for claim C3 at a concrete stale batch. -/
theorem serve_stale_on_refresh_failure_witness :
    let c : CachedNews := ⟨0, CACHE_TTL_SECONDS, [⟨"t", "s", "u", "p", "sm"⟩]⟩
    let st : WorkerState := ⟨some c, 0⟩
    (st.cachedNews = some c ∧ isFresh c 1000000 = false)
  ∧ ((handleRequest st 1000000).1 = RequestOutcome.awaitingNewRun
     ∧ (settleRun (handleRequest st 1000000).2 none 1000000).1 = c
     ∧ (settleRun (handleRequest st 1000000).2 none 1000000).2.cachedNews = some c) := by
  intro c st
  exact ⟨⟨rfl, by decide⟩, serve_stale_on_refresh_failure st c 1000000 rfl (by decide)⟩

/-- Claim C5: on a call with the cache empty whose generation run fails,
the caller gets a batch with no articles, the current timestamp and the
configured ttl, and the cache stays empty; the model is a total function,
so no failure escapes to the caller. -/
theorem empty_cache_failure_empty_batch (st : WorkerState) (now : Int)
    (hempty : st.cachedNews = none) :
    (handleRequest st now).1 = RequestOutcome.awaitingNewRun
  ∧ (settleRun (handleRequest st now).2 none now).1.articles = []
  ∧ (settleRun (handleRequest st now).2 none now).1.generatedAt = now
  ∧ (settleRun (handleRequest st now).2 none now).1.ttlSeconds = CACHE_TTL_SECONDS
  ∧ (settleRun (handleRequest st now).2 none now).2.cachedNews = none := by
  simp [handleRequest, settleRun, hempty]

/-- Witness for claim C5 at a concrete empty state. -/
theorem empty_cache_failure_empty_batch_witness :
    ((⟨none, 0⟩ : WorkerState).cachedNews = none)
  ∧ ((handleRequest ⟨none, 0⟩ 5).1 = RequestOutcome.awaitingNewRun
     ∧ (settleRun (handleRequest ⟨none, 0⟩ 5).2 none 5).1.articles = []
     ∧ (settleRun (handleRequest ⟨none, 0⟩ 5).2 none 5).1.generatedAt = 5
     ∧ (settleRun (handleRequest ⟨none, 0⟩ 5).2 none 5).1.ttlSeconds = CACHE_TTL_SECONDS
     ∧ (settleRun (handleRequest ⟨none, 0⟩ 5).2 none 5).2.cachedNews = none) :=
  ⟨rfl, empty_cache_failure_empty_batch ⟨none, 0⟩ 5 rfl⟩

/-- Claim C10: generateNews is a total function of the external outcomes:
whatever the fetch and summarization outcomes, it produces a batch whose
ttl is the configured constant, whose timestamp is the completion time and
whose article count is at most FINAL_ARTICLE_COUNT; moreover failed
fetches act exactly like sources contributing no articles. -/
theorem generateNews_never_fails (fetchResults : List (Option (List Article)))
    (aiItems : Option (List SummaryItem)) (now : Int) :
    (generateNews fetchResults aiItems now).ttlSeconds = CACHE_TTL_SECONDS
  ∧ (generateNews fetchResults aiItems now).generatedAt = now
  ∧ (generateNews fetchResults aiItems now).articles.length ≤ FINAL_ARTICLE_COUNT
  ∧ generateNews fetchResults aiItems now
      = generateNews (fetchResults.map (fun r => some (r.getD []))) aiItems now := by
  refine ⟨rfl, rfl, ?_, ?_⟩
  · show (summarizeArticles _ aiItems).length ≤ FINAL_ARTICLE_COUNT
    rw [summarizeArticles_length, List.length_take]
    exact min_le_left _ _
  · unfold generateNews
    rw [List.map_map, List.length_map]
    rfl

theorem truncate_length_of_long (text : String) (h : 320 < text.length) :
    (truncate text 320).length = 320 ∧ ∃ pre : String, truncate text 320 = pre ++ "…" := by
  unfold truncate
  rw [if_neg (by omega)]
  refine ⟨?_, ⟨String.mk (text.data.take (320 - 1)), rfl⟩⟩
  rw [String.length_append]
  have h1 : (String.mk (text.data.take (320 - 1))).length = min (320 - 1) text.data.length :=
    List.length_take _ _
  have h2 : text.data.length = text.length := rfl
  have h3 : ("…" : String).length = 1 := rfl
  rw [h1, h3]
  omega

/-- Claim C8: an item fragment that survives the required-field check
(nonempty cleaned title and nonempty link) and whose normalized
description is longer than 320 characters yields an article whose summary
is exactly 320 characters and ends in the ellipsis marker; a normalized
description of at most 320 characters is kept unchanged. -/
theorem parser_description_truncation (rawTitle rawLink rawPubDate rawDescription source : String)
    (art : Article)
    (h : parseRssEntry rawTitle rawLink rawPubDate rawDescription source = some art) :
    (320 < (cleanRssText (strTrim rawDescription)).length →
        art.summary.length = 320 ∧ ∃ pre : String, art.summary = pre ++ "…")
  ∧ ((cleanRssText (strTrim rawDescription)).length ≤ 320 →
        art.summary = cleanRssText (strTrim rawDescription)) := by
  have hsum : art.summary = truncate (cleanRssText (strTrim rawDescription)) 320 := by
    simp only [parseRssEntry] at h
    split at h
    · simp at h
    · cases h
      rfl
  rw [hsum]
  constructor
  · intro hl
    exact truncate_length_of_long _ hl
  · intro hle
    unfold truncate
    rw [if_pos hle]

/-- Witness for claim C8 at a concrete entry whose description cleans to
321 characters. -/
theorem parser_description_truncation_witness :
    let d : String := String.mk (List.replicate 321 'a')
    let art : Article := ⟨"T", "S", "u", "", String.mk (List.replicate 319 'a') ++ "…"⟩
    (parseRssEntry "T" "u" "" d "S" = some art ∧ 320 < (cleanRssText (strTrim d)).length)
  ∧ ((320 < (cleanRssText (strTrim d)).length →
        art.summary.length = 320 ∧ ∃ pre : String, art.summary = pre ++ "…")
     ∧ ((cleanRssText (strTrim d)).length ≤ 320 → art.summary = cleanRssText (strTrim d))) := by
  intro d art
  have h1 : parseRssEntry "T" "u" "" d "S" = some art := by decide
  have h2 : 320 < (cleanRssText (strTrim d)).length := by decide
  exact ⟨⟨h1, h2⟩, parser_description_truncation "T" "u" "" d "S" art h1⟩

theorem dedupeAux_sublist (l : List Article) (seen : List String) :
    (dedupeAux l seen).Sublist l := by
  induction l generalizing seen with
  | nil => simp [dedupeAux]
  | cons a rest ih =>
    unfold dedupeAux
    split
    · exact List.Sublist.cons a (ih seen)
    · exact List.Sublist.cons₂ a (ih _)

theorem dedupeAux_filter (l : List Article) (seen : List String) (key : String) :
    (dedupeAux l seen).filter (fun a => strToLower a.title == key)
      = if key ∈ seen then []
        else (l.filter (fun a => strToLower a.title == key)).take 1 := by
  induction l generalizing seen with
  | nil => simp [dedupeAux]
  | cons a rest ih =>
    unfold dedupeAux
    by_cases hmem : strToLower a.title ∈ seen
    · rw [if_pos hmem, ih seen]
      by_cases hkey : key ∈ seen
      · rw [if_pos hkey, if_pos hkey]
      · have hne : ¬ ((strToLower a.title == key) = true) := by
          simp only [beq_iff_eq]
          intro he
          exact hkey (he ▸ hmem)
        rw [if_neg hkey, if_neg hkey, List.filter_cons, if_neg hne]
    · rw [if_neg hmem]
      by_cases hkey : strToLower a.title = key
      · have hks : key ∉ seen := hkey ▸ hmem
        have hpa : (strToLower a.title == key) = true := by simpa using hkey
        rw [if_neg hks, List.filter_cons, List.filter_cons, if_pos hpa]
        rw [ih (strToLower a.title :: seen), if_pos (by simp [hkey])]
        rw [if_pos hpa]
        rfl
      · have hne : ¬ ((strToLower a.title == key) = true) := by simpa using hkey
        rw [List.filter_cons, List.filter_cons, if_neg hne, if_neg hne,
            ih (strToLower a.title :: seen)]
        by_cases hks : key ∈ seen
        · rw [if_pos (List.mem_cons_of_mem _ hks), if_pos hks]
        · have hks2 : key ∉ strToLower a.title :: seen := by
            intro hc
            rcases List.mem_cons.mp hc with h | h
            · exact hkey h.symm
            · exact hks h
          rw [if_neg hks2, if_neg hks]

theorem dedupeByTitle_filter (l : List Article) (key : String) :
    (dedupeByTitle l).filter (fun a => strToLower a.title == key)
      = (l.filter (fun a => strToLower a.title == key)).take 1 := by
  simpa [dedupeByTitle] using dedupeAux_filter l [] key

theorem insertGrouped_keys (gs : List (String × List Article)) (a : Article) :
    (insertGrouped gs a).map Prod.fst
      = if a.source ∈ gs.map Prod.fst then gs.map Prod.fst
        else gs.map Prod.fst ++ [a.source] := by
  induction gs with
  | nil => simp [insertGrouped]
  | cons g rest ih =>
    obtain ⟨k, lst⟩ := g
    by_cases hk : k = a.source
    · simp [insertGrouped, hk]
    · simp only [insertGrouped, if_neg hk, List.map_cons, ih]
      have hne : ¬ (a.source = k) := fun h => hk h.symm
      by_cases hmem : a.source ∈ rest.map Prod.fst
      · rw [if_pos hmem, if_pos (by simp [hmem])]
      · rw [if_neg hmem, if_neg (by simp [hne, hmem])]
        rfl

theorem insertGrouped_label (gs : List (String × List Article)) (a : Article)
    (hlab : ∀ p ∈ gs, ∀ x ∈ p.2, x.source = p.1) :
    ∀ p ∈ insertGrouped gs a, ∀ x ∈ p.2, x.source = p.1 := by
  induction gs with
  | nil =>
    intro p hp x hx
    simp only [insertGrouped, List.mem_singleton] at hp
    subst hp
    simp only [List.mem_singleton] at hx
    subst hx
    rfl
  | cons g rest ih =>
    obtain ⟨k, lst⟩ := g
    intro p hp x hx
    by_cases hk : k = a.source
    · rw [insertGrouped, if_pos hk] at hp
      rcases List.mem_cons.mp hp with h | h
      · subst h
        rcases List.mem_append.mp hx with h2 | h2
        · exact hlab (k, lst) (List.mem_cons_self _ _) x h2
        · simp only [List.mem_singleton] at h2
          subst h2
          exact hk.symm
      · exact hlab p (List.mem_cons_of_mem _ h) x hx
    · rw [insertGrouped, if_neg hk] at hp
      rcases List.mem_cons.mp hp with h | h
      · subst h
        exact hlab (k, lst) (List.mem_cons_self _ _) x hx
      · exact ih (fun q hq => hlab q (List.mem_cons_of_mem _ hq)) p h x hx

theorem insertGrouped_flatten_perm (gs : List (String × List Article)) (a : Article) :
    ((insertGrouped gs a).map Prod.snd).flatten.Perm
      (((gs.map Prod.snd).flatten) ++ [a]) := by
  induction gs with
  | nil => simp [insertGrouped]
  | cons g rest ih =>
    obtain ⟨k, lst⟩ := g
    by_cases hk : k = a.source
    · simp only [insertGrouped, if_pos hk, List.map_cons, List.flatten_cons]
      have h1 : lst ++ [a] ++ ((rest.map Prod.snd).flatten)
          = lst ++ ([a] ++ ((rest.map Prod.snd).flatten)) := List.append_assoc _ _ _
      rw [h1, List.append_assoc]
      exact List.Perm.append_left lst List.perm_append_comm
    · simp only [insertGrouped, if_neg hk, List.map_cons, List.flatten_cons]
      rw [List.append_assoc]
      exact List.Perm.append_left lst ih

theorem foldl_insertGrouped_flatten_perm (l : List Article) :
    ∀ gs : List (String × List Article),
      ((l.foldl insertGrouped gs).map Prod.snd).flatten.Perm
        (((gs.map Prod.snd).flatten) ++ l) := by
  induction l with
  | nil => intro gs; simp
  | cons a rest ih =>
    intro gs
    have h1 := ih (insertGrouped gs a)
    have h2 : ((((insertGrouped gs a).map Prod.snd).flatten) ++ rest).Perm
        ((((gs.map Prod.snd).flatten) ++ [a]) ++ rest) :=
      List.Perm.append (insertGrouped_flatten_perm gs a) (List.Perm.refl rest)
    have h3 : (((gs.map Prod.snd).flatten) ++ [a]) ++ rest
        = ((gs.map Prod.snd).flatten) ++ (a :: rest) := by
      rw [List.append_assoc]
      rfl
    exact (h1.trans h2).trans (h3 ▸ List.Perm.refl _)

theorem groupBySource_flatten_perm (l : List Article) :
    (((groupBySource l).map Prod.snd).flatten).Perm l := by
  simpa [groupBySource] using foldl_insertGrouped_flatten_perm l []

theorem sweepHeads_nil_flatten (gs : List (List Article)) (h : sweepHeads gs = []) :
    gs.flatten = [] := by
  induction gs with
  | nil => rfl
  | cons g rest ih =>
    cases g with
    | nil =>
      simp only [sweepHeads, List.filterMap_cons] at h
      simp only [List.flatten_cons, List.nil_append]
      exact ih h
    | cons a as =>
      simp [sweepHeads, List.filterMap_cons] at h

theorem flatten_perm_sweep (gs : List (List Article)) :
    gs.flatten.Perm (sweepHeads gs ++ (sweepTails gs).flatten) := by
  induction gs with
  | nil => simp [sweepHeads, sweepTails]
  | cons g rest ih =>
    cases g with
    | nil =>
      simpa [sweepHeads, sweepTails, List.filterMap_cons] using ih
    | cons a as =>
      simp only [sweepHeads, sweepTails, List.filterMap_cons, List.head?, List.tail,
        List.flatten_cons, List.map_cons, List.cons_append]
      refine List.Perm.cons a ?_
      have h1 : (as ++ rest.flatten).Perm
          (as ++ (rest.filterMap List.head? ++ (rest.map List.tail).flatten)) :=
        List.Perm.append_left as (by simpa [sweepHeads, sweepTails] using ih)
      have h2 : (as ++ (rest.filterMap List.head? ++ (rest.map List.tail).flatten)).Perm
          (rest.filterMap List.head? ++ (as ++ (rest.map List.tail).flatten)) := by
        rw [← List.append_assoc, ← List.append_assoc]
        exact List.Perm.append List.perm_append_comm (List.Perm.refl _)
      exact h1.trans h2

theorem sum_sweep (gs : List (List Article)) :
    ((sweepTails gs).map List.length).sum + (sweepHeads gs).length
      = (gs.map List.length).sum := by
  induction gs with
  | nil => rfl
  | cons g rest ih =>
    cases g with
    | nil =>
      simp only [sweepHeads, sweepTails, List.filterMap_cons, List.head?, List.tail,
        List.map_cons, List.sum_cons, List.length_nil] at *
      omega
    | cons a as =>
      simp only [sweepHeads, sweepTails, List.filterMap_cons, List.head?, List.tail,
        List.map_cons, List.sum_cons, List.length_cons] at *
      omega

theorem interleaveRounds_perm (fuel : Nat) :
    ∀ gs : List (List Article), (gs.map List.length).sum ≤ fuel →
      (interleaveRounds fuel gs).Perm gs.flatten := by
  induction fuel with
  | zero =>
    intro gs h
    have h0 : gs.flatten.length = 0 := by
      rw [List.length_flatten]
      omega
    rw [List.length_eq_zero.mp h0]
    exact List.Perm.refl _
  | succ fuel ih =>
    intro gs h
    unfold interleaveRounds
    cases hh : sweepHeads gs with
    | nil =>
      rw [sweepHeads_nil_flatten gs hh]
      simp
    | cons b bs =>
      simp only [List.isEmpty_cons, if_false, Bool.false_eq_true]
      have hsum := sum_sweep gs
      have hrec : ((sweepTails gs).map List.length).sum ≤ fuel := by
        rw [hh] at hsum
        simp only [List.length_cons] at hsum
        omega
      have h1 : (sweepHeads gs ++ interleaveRounds fuel (sweepTails gs)).Perm
          (sweepHeads gs ++ (sweepTails gs).flatten) :=
        List.Perm.append_left _ (ih (sweepTails gs) hrec)
      rw [hh] at h1
      exact h1.trans (by rw [← hh]; exact (flatten_perm_sweep gs).symm)

theorem dedupeAndInterleave_perm (l : List Article) :
    (dedupeAndInterleaveBySource l).Perm (dedupeByTitle l) := by
  unfold dedupeAndInterleaveBySource
  have hg := groupBySource_flatten_perm (dedupeByTitle l)
  have hsum : ((((groupBySource (dedupeByTitle l)).map Prod.snd).map List.length).sum)
      = (dedupeByTitle l).length := by
    rw [← List.length_flatten]
    exact hg.length_eq
  exact (interleaveRounds_perm _ _ (le_of_eq hsum)).trans hg

/-- For each lowercased title key, the merged output of the intended
reading contains exactly the first input article with that key. -/
theorem merged_filter_take_one (l : List Article) (key : String) :
    (dedupeAndInterleaveBySource l).filter (fun a => strToLower a.title == key)
      = (l.filter (fun a => strToLower a.title == key)).take 1 := by
  have hperm := (dedupeAndInterleave_perm l).filter (fun a => strToLower a.title == key)
  rw [dedupeByTitle_filter l key] at hperm
  cases htake : (l.filter (fun a => strToLower a.title == key)).take 1 with
  | nil =>
    rw [htake] at hperm
    exact hperm.eq_nil
  | cons b bs =>
    have hbs : bs = [] := by
      have h1 := congrArg List.length htake
      simp only [List.length_cons] at h1
      have h2 : ((l.filter (fun a => strToLower a.title == key)).take 1).length ≤ 1 :=
        List.length_take_le 1 _
      exact List.length_eq_zero.mp (by omega)
    subst hbs
    rw [htake] at hperm
    exact hperm.eq_singleton

/-- Claim C6: the final merger output length is the minimum of
FINAL_ARTICLE_COUNT and the deduplicated count; the round-robin
interleave emits every deduplicated article exactly once (it is a
permutation of the deduplicated sequence) and is then truncated. -/
theorem merger_truncation_bound (l : List Article) :
    ((dedupeAndInterleaveBySource l).take FINAL_ARTICLE_COUNT).length
        = min FINAL_ARTICLE_COUNT (dedupeByTitle l).length
  ∧ (dedupeAndInterleaveBySource l).Perm (dedupeByTitle l) := by
  refine ⟨?_, dedupeAndInterleave_perm l⟩
  rw [List.length_take, (dedupeAndInterleave_perm l).length_eq]

theorem countSrc_nil (s : String) : countSrc s [] = 0 := rfl

theorem countSrc_append (s : String) (xs ys : List Article) :
    countSrc s (xs ++ ys) = countSrc s xs + countSrc s ys := by
  unfold countSrc
  rw [List.filter_append, List.length_append]

theorem countSrc_perm (s : String) {xs ys : List Article} (h : xs.Perm ys) :
    countSrc s xs = countSrc s ys :=
  (h.filter _).length_eq

theorem countSrc_take_le (s : String) (xs : List Article) (n : Nat) :
    countSrc s (xs.take n) ≤ countSrc s xs :=
  (List.Sublist.filter _ (List.take_sublist n xs)).length_le

theorem countSrc_pos (t : String) (xs : List Article) :
    0 < countSrc t xs ↔ ∃ a ∈ xs, a.source = t := by
  unfold countSrc
  rw [← List.countP_eq_length_filter, List.countP_pos_iff]
  simp

theorem srcGrouped_sweepTails (gs : List (List Article)) (hg : SrcGrouped gs) :
    SrcGrouped (sweepTails gs) := by
  obtain ⟨hpair, hunif⟩ := hg
  constructor
  · rw [sweepTails, List.pairwise_map]
    refine hpair.imp ?_
    intro g h hr a ha b hb
    exact hr a ((List.tail_sublist g).mem ha) b ((List.tail_sublist h).mem hb)
  · intro g hgmem a ha b hb
    rcases List.mem_map.mp hgmem with ⟨g0, hg0, rfl⟩
    exact hunif g0 hg0 a ((List.tail_sublist g0).mem ha) b ((List.tail_sublist g0).mem hb)

theorem countSrc_sweepHeads_le_one (gs : List (List Article)) :
    SrcGrouped gs → ∀ s : String, countSrc s (sweepHeads gs) ≤ 1 := by
  induction gs with
  | nil =>
    intro _ s
    simp [sweepHeads, countSrc]
  | cons g rest ih =>
    rintro ⟨hpair, hunif⟩ s
    rw [List.pairwise_cons] at hpair
    obtain ⟨hgr, hrest⟩ := hpair
    have hrec := ih ⟨hrest, fun g2 hg2 => hunif g2 (List.mem_cons_of_mem _ hg2)⟩ s
    cases g with
    | nil => simpa [sweepHeads, List.filterMap_cons] using hrec
    | cons x xs =>
      have hstep : sweepHeads ((x :: xs) :: rest) = x :: sweepHeads rest := by
        simp [sweepHeads, List.filterMap_cons]
      rw [hstep]
      by_cases hx : (x.source == s) = true
      · have hzero : countSrc s (sweepHeads rest) = 0 := by
          by_contra hnz
          rcases (countSrc_pos s (sweepHeads rest)).mp (Nat.pos_of_ne_zero hnz)
            with ⟨y, hy, hys⟩
          rcases List.mem_filterMap.mp hy with ⟨h2, hh2, hhead⟩
          have hyh2 : y ∈ h2 := by
            cases h2 with
            | nil => simp [List.head?] at hhead
            | cons z zs =>
              simp only [List.head?, Option.some.injEq] at hhead
              rw [← hhead]
              exact List.mem_cons_self z zs
          refine hgr h2 hh2 x (List.mem_cons_self x xs) y hyh2 ?_
          rw [hys]
          simpa using hx
        have : countSrc s (x :: sweepHeads rest) = countSrc s (sweepHeads rest) + 1 := by
          unfold countSrc
          rw [List.filter_cons, if_pos hx]
          rfl
        omega
      · have : countSrc s (x :: sweepHeads rest) = countSrc s (sweepHeads rest) := by
          unfold countSrc
          rw [List.filter_cons, if_neg hx]
        omega

theorem countSrc_sweepHeads_pos (gs : List (List Article)) (hg : SrcGrouped gs) (t : String)
    (h : 0 < countSrc t (sweepTails gs).flatten) :
    0 < countSrc t (sweepHeads gs) := by
  obtain ⟨-, hunif⟩ := hg
  rcases (countSrc_pos t _).mp h with ⟨a, ha, hat⟩
  rcases List.mem_flatten.mp ha with ⟨tl, htl, hatl⟩
  rcases List.mem_map.mp htl with ⟨g, hgmem, rfl⟩
  apply (countSrc_pos t _).mpr
  cases hgg : g with
  | nil =>
    rw [hgg] at hatl
    simp at hatl
  | cons x xs =>
    refine ⟨x, ?_, ?_⟩
    · apply List.mem_filterMap.mpr
      refine ⟨g, hgmem, ?_⟩
      rw [hgg]
      rfl
    · have hxg : x ∈ g := by
        rw [hgg]
        exact List.mem_cons_self x xs
      have hag : a ∈ g := (List.tail_sublist g).mem hatl
      rw [← hat]
      exact hunif g hgmem x hxg a hag

theorem foldl_insertGrouped_label (l : List Article) :
    ∀ gs, (∀ p ∈ gs, ∀ x ∈ p.2, x.source = p.1) →
      ∀ p ∈ l.foldl insertGrouped gs, ∀ x ∈ p.2, x.source = p.1 := by
  induction l with
  | nil => intro gs h; exact h
  | cons a rest ih => intro gs h; exact ih _ (insertGrouped_label gs a h)

theorem foldl_insertGrouped_keys_nodup (l : List Article) :
    ∀ gs, ((gs.map Prod.fst).Nodup) → ((l.foldl insertGrouped gs).map Prod.fst).Nodup := by
  induction l with
  | nil => intro gs h; exact h
  | cons a rest ih =>
    intro gs h
    apply ih
    rw [insertGrouped_keys]
    by_cases hm : a.source ∈ gs.map Prod.fst
    · rw [if_pos hm]
      exact h
    · rw [if_neg hm, List.nodup_append]
      refine ⟨h, List.nodup_singleton _, ?_⟩
      intro b hb hb2
      simp only [List.mem_singleton] at hb2
      subst hb2
      exact hm hb

theorem srcGrouped_groupBySource (m : List Article) :
    SrcGrouped ((groupBySource m).map Prod.snd) := by
  have hlab : ∀ p ∈ groupBySource m, ∀ x ∈ p.2, x.source = p.1 :=
    foldl_insertGrouped_label m [] (by intro p hp; simp at hp)
  have hkeys : ((groupBySource m).map Prod.fst).Nodup :=
    foldl_insertGrouped_keys_nodup m [] (by simp)
  constructor
  · rw [List.pairwise_map]
    have hkp : (groupBySource m).Pairwise (fun p q => p.1 ≠ q.1) :=
      List.pairwise_map.mp hkeys
    refine hkp.imp_of_mem ?_
    intro p q hp hq hne a ha b hb
    rw [hlab p hp a ha, hlab q hq b hb]
    exact hne
  · intro g hgmem a ha b hb
    rcases List.mem_map.mp hgmem with ⟨p, hp, rfl⟩
    rw [hlab p hp a ha, hlab p hp b hb]

theorem interleave_fair (fuel : Nat) :
    ∀ gs : List (List Article), (gs.map List.length).sum ≤ fuel → SrcGrouped gs →
      ∀ n : Nat, ∀ s t : String,
        countSrc t ((interleaveRounds fuel gs).take n) < countSrc t gs.flatten →
        countSrc s ((interleaveRounds fuel gs).take n)
          ≤ countSrc t ((interleaveRounds fuel gs).take n) + 1 := by
  induction fuel with
  | zero =>
    intro gs hsum hg n s t hlt
    have h0 : gs.flatten.length = 0 := by
      rw [List.length_flatten]
      omega
    rw [List.length_eq_zero.mp h0] at hlt
    simp [interleaveRounds, countSrc] at hlt
  | succ fuel ih =>
    intro gs hsum hg n s t hlt
    have hout : (1 ≤ (sweepHeads gs).length
          ∧ interleaveRounds (fuel + 1) gs
              = sweepHeads gs ++ interleaveRounds fuel (sweepTails gs))
        ∨ (interleaveRounds (fuel + 1) gs = [] ∧ gs.flatten = []) := by
      cases hh : sweepHeads gs with
      | nil =>
        right
        exact ⟨by simp [interleaveRounds, hh], sweepHeads_nil_flatten gs hh⟩
      | cons b bs =>
        left
        constructor
        · simp
        · simp [interleaveRounds, hh]
    rcases hout with ⟨hlen, hout⟩ | ⟨hout, hfl⟩
    · rw [hout] at hlt ⊢
      rw [List.take_append_eq_append_take] at hlt ⊢
      rw [countSrc_append] at hlt
      rw [countSrc_append, countSrc_append]
      have hflat : countSrc t gs.flatten
          = countSrc t (sweepHeads gs) + countSrc t (sweepTails gs).flatten := by
        have h1 := countSrc_perm t (flatten_perm_sweep gs)
        rw [countSrc_append] at h1
        exact h1
      rw [hflat] at hlt
      have hsum2 := sum_sweep gs
      have hrec : ((sweepTails gs).map List.length).sum ≤ fuel := by omega
      have hgt := srcGrouped_sweepTails gs hg
      have hsH : countSrc s (sweepHeads gs) ≤ 1 := countSrc_sweepHeads_le_one gs hg s
      by_cases hn : n ≤ (sweepHeads gs).length
      · rw [Nat.sub_eq_zero_of_le hn, List.take_zero, countSrc_nil, countSrc_nil]
        have h1 : countSrc s ((sweepHeads gs).take n) ≤ countSrc s (sweepHeads gs) :=
          countSrc_take_le s _ n
        omega
      · push_neg at hn
        have htk : (sweepHeads gs).take n = sweepHeads gs :=
          List.take_of_length_le (Nat.le_of_lt hn)
        rw [htk] at hlt ⊢
        have hlt2 : countSrc t ((interleaveRounds fuel (sweepTails gs)).take
              (n - (sweepHeads gs).length))
            < countSrc t (sweepTails gs).flatten := by omega
        have hih := ih (sweepTails gs) hrec hgt (n - (sweepHeads gs).length) s t hlt2
        have hpos : 0 < countSrc t (sweepTails gs).flatten := by omega
        have hposH : 0 < countSrc t (sweepHeads gs) :=
          countSrc_sweepHeads_pos gs hg t hpos
        omega
    · rw [hout] at hlt
      rw [hfl] at hlt
      simp [countSrc] at hlt

theorem srcGrouped_iterate (k : Nat) :
    ∀ gs : List (List Article), SrcGrouped gs → SrcGrouped (sweepTails^[k] gs) := by
  induction k with
  | zero => intro gs hg; simpa using hg
  | succ k ih =>
    intro gs hg
    rw [Function.iterate_succ_apply]
    exact ih _ (srcGrouped_sweepTails gs hg)

/-- Claim C4: in the round-robin output, a source never appears twice in a
prefix before every other source that still has unemitted articles has
appeared once more: in every prefix, the count of any source exceeds the
count of any source that is not yet exhausted by at most one.  Moreover
every sweep over the source groups emits at most one article per source. -/
theorem merger_round_robin_fairness (l : List Article) :
    (∀ n : Nat, ∀ s t : String, s ≠ t →
        countSrc t ((dedupeAndInterleaveBySource l).take n) < countSrc t (dedupeByTitle l) →
        countSrc s ((dedupeAndInterleaveBySource l).take n)
          ≤ countSrc t ((dedupeAndInterleaveBySource l).take n) + 1)
  ∧ (∀ k : Nat, ∀ s : String,
        countSrc s (sweepHeads (sweepTails^[k]
          ((groupBySource (dedupeByTitle l)).map Prod.snd))) ≤ 1) := by
  constructor
  · intro n s t _ hlt
    have hg := srcGrouped_groupBySource (dedupeByTitle l)
    have hperm := groupBySource_flatten_perm (dedupeByTitle l)
    have hsum : ((((groupBySource (dedupeByTitle l)).map Prod.snd).map List.length).sum)
        = (dedupeByTitle l).length := by
      rw [← List.length_flatten]
      exact hperm.length_eq
    have htot : countSrc t (dedupeByTitle l)
        = countSrc t (((groupBySource (dedupeByTitle l)).map Prod.snd).flatten) :=
      (countSrc_perm t hperm).symm
    rw [htot] at hlt
    exact interleave_fair (dedupeByTitle l).length _ (le_of_eq hsum) hg n s t hlt
  · intro k s
    exact countSrc_sweepHeads_le_one _
      (srcGrouped_iterate k _ (srcGrouped_groupBySource (dedupeByTitle l))) s

theorem jsObjectValues_of_no_index (ps : List (String × Article))
    (h : ∀ p ∈ ps, isArrayIndex p.1 = none) :
    jsObjectValues ps = ps.map Prod.snd := by
  unfold jsObjectValues
  have h1 : ps.filterMap (fun p => (isArrayIndex p.1).map (fun n => (n, p.2))) = [] := by
    rw [List.filterMap_eq_nil_iff]
    intro p hp
    rw [h p hp]
    rfl
  have h2 : ps.filter (fun p => (isArrayIndex p.1).isNone) = ps := by
    rw [List.filter_eq_self]
    intro p hp
    rw [h p hp]
    rfl
  rw [h1, h2]
  rfl

theorem jsLookupTruthy_good (ps : List (String × Article)) (key : String)
    (h1 : key ≠ "constructor") (h2 : key ≠ "__proto__") :
    jsLookupTruthy ⟨ps, none⟩ key = true ↔ key ∈ ps.map Prod.fst := by
  by_cases hm : key ∈ ps.map Prod.fst <;>
    simp [jsLookupTruthy, hm, h1, h2]

theorem dedupeAux_congr (l : List Article) :
    ∀ s1 s2 : List String, (∀ k, k ∈ s1 ↔ k ∈ s2) → dedupeAux l s1 = dedupeAux l s2 := by
  induction l with
  | nil => intro s1 s2 _; rfl
  | cons a rest ih =>
    intro s1 s2 h
    unfold dedupeAux
    by_cases hm : strToLower a.title ∈ s1
    · rw [if_pos hm, if_pos ((h _).mp hm)]
      exact ih s1 s2 h
    · rw [if_neg hm, if_neg (fun hc => hm ((h _).mpr hc))]
      congr 1
      apply ih
      intro k
      simp only [List.mem_cons]
      constructor
      · rintro (hk | hk)
        · exact Or.inl hk
        · exact Or.inr ((h _).mp hk)
      · rintro (hk | hk)
        · exact Or.inl hk
        · exact Or.inr ((h _).mpr hk)

theorem dedupeJsLoop_good : ∀ l : List Article,
    (∀ a ∈ l, goodKey (strToLower a.title)) →
    ∀ ps : List (String × Article),
      ∃ qs : List (String × Article),
        dedupeJsLoop l ⟨ps, none⟩ = ⟨ps ++ qs, none⟩
      ∧ qs.map Prod.snd = dedupeAux l (ps.map Prod.fst)
      ∧ ∀ p ∈ qs, goodKey p.1 := by
  intro l
  induction l with
  | nil =>
    intro _ ps
    refine ⟨[], by simp [dedupeJsLoop], by simp [dedupeAux], by simp⟩
  | cons a rest ih =>
    intro hl ps
    obtain ⟨h1, h2, h3⟩ := hl a (List.mem_cons_self a rest)
    have hrest : ∀ b ∈ rest, goodKey (strToLower b.title) :=
      fun b hb => hl b (List.mem_cons_of_mem a hb)
    simp only [dedupeJsLoop]
    by_cases hm : strToLower a.title ∈ ps.map Prod.fst
    · have htr : jsLookupTruthy ⟨ps, none⟩ (strToLower a.title) = true :=
        (jsLookupTruthy_good ps _ h1 h2).mpr hm
      rw [if_pos htr]
      obtain ⟨qs, he, hmap, hgood⟩ := ih hrest ps
      refine ⟨qs, he, ?_, hgood⟩
      rw [hmap]
      simp only [dedupeAux]
      rw [if_pos hm]
    · have hfalse : jsLookupTruthy ⟨ps, none⟩ (strToLower a.title) = false := by
        cases hb : jsLookupTruthy ⟨ps, none⟩ (strToLower a.title)
        · rfl
        · exact absurd ((jsLookupTruthy_good ps _ h1 h2).mp hb) hm
      rw [if_neg (by rw [hfalse]; exact Bool.false_ne_true)]
      have hassign : jsAssign ⟨ps, none⟩ (strToLower a.title) a
          = ⟨ps ++ [(strToLower a.title, a)], none⟩ := by
        unfold jsAssign
        rw [if_neg h2]
      rw [hassign]
      obtain ⟨qs, he, hmap, hgood⟩ := ih hrest (ps ++ [(strToLower a.title, a)])
      refine ⟨(strToLower a.title, a) :: qs, ?_, ?_, ?_⟩
      · rw [he, List.append_assoc]
        rfl
      · simp only [List.map_cons]
        rw [hmap, List.map_append]
        simp only [List.map_cons, List.map_nil]
        simp only [dedupeAux]
        rw [if_neg hm]
        congr 1
        apply dedupeAux_congr
        intro k2
        rw [List.mem_append, List.mem_singleton, List.mem_cons, or_comm]
      · intro p hp
        rcases List.mem_cons.mp hp with hp1 | hp2
        · rw [hp1]
          exact ⟨h1, h2, h3⟩
        · exact hgood p hp2

theorem dedupeByTitleJs_good (l : List Article)
    (hl : ∀ a ∈ l, goodKey (strToLower a.title)) :
    dedupeByTitleJs l = dedupeByTitle l := by
  obtain ⟨qs, he, hmap, hgood⟩ := dedupeJsLoop_good l hl []
  unfold dedupeByTitleJs
  rw [he]
  simp only [List.nil_append]
  rw [jsObjectValues_of_no_index qs (fun p hp => (hgood p hp).2.2), hmap]
  rfl

theorem dedupeAndInterleaveBySourceJs_good (l : List Article)
    (hl : ∀ a ∈ l, goodKey (strToLower a.title)) :
    dedupeAndInterleaveBySourceJs l = dedupeAndInterleaveBySource l := by
  unfold dedupeAndInterleaveBySourceJs dedupeAndInterleaveBySource
  rw [dedupeByTitleJs_good l hl]

/-- Counterexample to claim C1: under the exact JavaScript object
semantics the dedup map does not keep the first-seen article for every
key.  An article whose title lowercases to constructor is never stored,
because the truthiness guard finds the inherited Object.prototype
property, so the merger output omits it entirely while the claim demands
exactly the first occurrence; and a title that is an array-index string
such as 2024 is enumerated by Object.values before earlier-inserted
keys, so the deduplicated sequence does not preserve the original
relative order among first occurrences. -/
theorem merger_dedupe_first_seen_counterexample :
    (dedupeAndInterleaveBySourceJs [⟨"Constructor", "A", "u1", "p1", "s1"⟩] = []
      ∧ ([(⟨"Constructor", "A", "u1", "p1", "s1"⟩ : Article)].filter
          (fun a => strToLower a.title == "constructor")).take 1
          = [⟨"Constructor", "A", "u1", "p1", "s1"⟩])
  ∧ (dedupeByTitleJs [⟨"zebra", "A", "u2", "p2", "s2"⟩, ⟨"2024", "A", "u3", "p3", "s3"⟩]
        = [⟨"2024", "A", "u3", "p3", "s3"⟩, ⟨"zebra", "A", "u2", "p2", "s2"⟩]
      ∧ ¬ (dedupeByTitleJs [⟨"zebra", "A", "u2", "p2", "s2"⟩,
            ⟨"2024", "A", "u3", "p3", "s3"⟩]).Sublist
          [⟨"zebra", "A", "u2", "p2", "s2"⟩, ⟨"2024", "A", "u3", "p3", "s3"⟩]) := by
  decide

/-- Claim C1 as amended: provided no lowercased title is constructor or
the proto key (which the truthiness guard treats as already present,
dropping such articles entirely) and no lowercased title is an
array-index string (which Object.values enumerates first in numeric
order), the dedup map keeps, for each lowercased title key, exactly the
first-seen article with that key and no others, the deduplicated
sequence preserves the original relative order among first occurrences,
and of two articles whose titles differ only in case exactly the
first-occurring one survives into the merger output. -/
theorem merger_dedupe_first_seen_amended (l : List Article)
    (hl : ∀ a ∈ l, goodKey (strToLower a.title)) :
    dedupeByTitleJs l = dedupeByTitle l
  ∧ (dedupeByTitleJs l).Sublist l
  ∧ (∀ key : String,
      (dedupeByTitleJs l).filter (fun a => strToLower a.title == key)
        = (l.filter (fun a => strToLower a.title == key)).take 1)
  ∧ (∀ key : String,
      (dedupeAndInterleaveBySourceJs l).filter (fun a => strToLower a.title == key)
        = (l.filter (fun a => strToLower a.title == key)).take 1) := by
  have he := dedupeByTitleJs_good l hl
  have hm := dedupeAndInterleaveBySourceJs_good l hl
  refine ⟨he, ?_, ?_, ?_⟩
  · rw [he]
    exact dedupeAux_sublist l []
  · intro key
    rw [he]
    exact dedupeByTitle_filter l key
  · intro key
    rw [hm]
    exact merged_filter_take_one l key

/-- Witness for the amended claim C1 at a concrete input with two
case-variant titles and only ordinary keys. -/
theorem merger_dedupe_first_seen_amended_witness :
    let l : List Article := [⟨"Hello", "A", "u1", "p1", "s1"⟩,
      ⟨"hello", "B", "u2", "p2", "s2"⟩, ⟨"World", "B", "u3", "p3", "s3"⟩]
    (∀ a ∈ l, goodKey (strToLower a.title))
  ∧ (dedupeByTitleJs l = dedupeByTitle l
     ∧ (dedupeByTitleJs l).Sublist l
     ∧ (∀ key : String,
         (dedupeByTitleJs l).filter (fun a => strToLower a.title == key)
           = (l.filter (fun a => strToLower a.title == key)).take 1)
     ∧ (∀ key : String,
         (dedupeAndInterleaveBySourceJs l).filter (fun a => strToLower a.title == key)
           = (l.filter (fun a => strToLower a.title == key)).take 1)) := by
  intro l
  exact ⟨by decide, merger_dedupe_first_seen_amended l (by decide)⟩
